import Mathlib

/- Verification of the Gitflow branch-lifecycle and merge-policy engine described in
the repository's workflow chapter.  The repository contains no executable
implementation of this engine (the workflow is given as a narrative of git
commands), so every definition below is a shallow embedding modelled from the
specification's words: branch roles, the fork/merge policy tables, the branch
classifier, the release tagger, and the merge orchestrator over an abstract
append-only commit DAG backend. -/

namespace Gitflow

/-- Modelled from the spec: the functional category of a branch
(Main, Develop, Feature, Release, Maintenance), governing which operations
the Policy Engine permits (spec section 3, section 9). -/
inductive Role where
  | main
  | develop
  | feature
  | release
  | maintenance
deriving DecidableEq, Fintype

/-- Modelled from the spec: the error taxonomy of section 7.
`pairIncomplete` models the spec's PartialRelease condition. -/
inductive Err where
  | forkNotAllowed
  | mergeNotAllowed
  | classificationFailed
  | mergeConflict
  | staleRef
  | pairIncomplete
  | nonMonotonicVersion
  | refNotFound
  | refExists
deriving DecidableEq

instance {E A : Type} [DecidableEq E] [DecidableEq A] : DecidableEq (Except E A) :=
  fun a b =>
  match a, b with
  | Except.ok x, Except.ok y =>
    if h : x = y then isTrue (by rw [h]) else isFalse (by intro hh; cases hh; exact h rfl)
  | Except.error x, Except.error y =>
    if h : x = y then isTrue (by rw [h]) else isFalse (by intro hh; cases hh; exact h rfl)
  | Except.ok _, Except.error _ => isFalse (by intro hh; cases hh)
  | Except.error _, Except.ok _ => isFalse (by intro hh; cases hh)

/-- Modelled from the spec: a semantic version in major.minor.patch form. -/
structure Version where
  major : Nat
  minor : Nat
  patch : Nat
deriving DecidableEq

/-- Modelled from the spec: strict major.minor.patch ordering on versions. -/
def versionLt (a b : Version) : Bool :=
  if a.major < b.major then true
  else if b.major < a.major then false
  else if a.minor < b.minor then true
  else if b.minor < a.minor then false
  else decide (a.patch < b.patch)

/-- Modelled from the spec: a Tag is a named, immutable alias to a commit. -/
structure Tag where
  version : Version
  commit : Nat
deriving DecidableEq

/-- Modelled from the spec: the configured pair of reserved branch names
for the Main and Develop branches (spec section 4.1). -/
structure Config where
  mainName : String
  developName : String
deriving DecidableEq

/-- Modelled from the spec: a BranchRef records name, role, head commit and
the branch it was forked from (spec section 3). -/
structure BranchRef where
  name : String
  role : Role
  head : Nat
  forkedFrom : Option String
deriving DecidableEq

/-- Modelled from the spec: the in-memory Repository Model.  Commits form an
append-only DAG, represented as an arena of (id, parent ids) pairs; ids are
allocated by an increasing counter. -/
structure RepoState where
  commits : List (Nat × List Nat)
  branches : List BranchRef
  tags : List Tag
  nextId : Nat
deriving DecidableEq

/-- Prefix test on branch names, reading names as character sequences. -/
def startsWithP (s p : String) : Bool :=
  p.data.isPrefixOf s.data

def featPre : String := "feature/"

def relPre : String := "release/"

def hotPre : String := "hotfix/"

def maintPre : String := "maintenance/"

/-- Modelled from the spec: the Branch Classifier (section 4.1), a pure
function of (name, lineage).  Prefixes map to roles; a name with no
recognized prefix and no fork-parent defaults to Main or Develop based on
the configured reserved names; anything else fails with ClassificationError
(here `Err.classificationFailed`). -/
def classify (cfg : Config) (name : String) (forkedFrom : Option String) : Except Err Role :=
  if startsWithP name featPre then Except.ok Role.feature
  else if startsWithP name relPre then Except.ok Role.release
  else if startsWithP name hotPre || startsWithP name maintPre then Except.ok Role.maintenance
  else
    match forkedFrom with
    | none =>
      if name = cfg.mainName then Except.ok Role.main
      else if name = cfg.developName then Except.ok Role.develop
      else Except.error Err.classificationFailed
    | some _ => Except.error Err.classificationFailed

/-- Modelled from the spec: the Policy Engine fork table (section 4.2):
Main may fork Maintenance; Develop may fork Feature and Release; Release
and Maintenance admit no further forking.  Feature is not listed as a legal
parent in the table, so it admits no children either. -/
def canFork : Role → List Role
  | Role.main => [Role.maintenance]
  | Role.develop => [Role.feature, Role.release]
  | Role.feature => []
  | Role.release => []
  | Role.maintenance => []

/-- Modelled from the spec: the Policy Engine merge table (section 4.2):
Feature merges into Develop; Release and Maintenance merge into Main;
every other (source, target) pair is disallowed. -/
def canMerge : Role → Role → Bool
  | Role.feature, Role.develop => true
  | Role.release, Role.main => true
  | Role.maintenance, Role.main => true
  | _, _ => false

/-- Modelled from the spec: which allowed merges are paired, i.e. must be
accompanied by a companion merge into Develop (section 4.2). -/
def pairedMerge : Role → Role → Bool
  | Role.release, Role.main => true
  | Role.maintenance, Role.main => true
  | _, _ => false

/-- The ephemeral roles: branches with these roles are deleted after their
final merge; Main and Develop are never deleted (invariant 1). -/
def ephemeralRoles : List Role := [Role.feature, Role.release, Role.maintenance]

/-- Look up a branch by name. -/
def findBranch (st : RepoState) (n : String) : Option BranchRef :=
  st.branches.find? fun b => b.name == n

/-- Advance the head pointer of the branch named `n`. -/
def setHead (st : RepoState) (n : String) (h : Nat) : RepoState :=
  RepoState.mk st.commits
    (st.branches.map fun b =>
      if b.name == n then BranchRef.mk b.name b.role h b.forkedFrom else b)
    st.tags st.nextId

/-- Delete the branch named `n`. -/
def removeBranch (st : RepoState) (n : String) : RepoState :=
  RepoState.mk st.commits (st.branches.filter fun b => b.name != n) st.tags st.nextId

/-- Head commit of the branch named `n` (0 when absent). -/
def headOf (st : RepoState) (n : String) : Nat :=
  match findBranch st n with
  | some b => b.head
  | none => 0

/-- Parent ids of a commit in the arena. -/
def parentsOf (cs : List (Nat × List Nat)) (c : Nat) : List Nat :=
  match cs.find? (fun pr => pr.1 == c) with
  | some pr => pr.2
  | none => []

/-- Fuel-bounded ancestor test: `reachB cs f a b` decides whether `b` is
reachable from `a` by following parent pointers, with at most `f` steps. -/
def reachB (cs : List (Nat × List Nat)) : Nat → Nat → Nat → Bool
  | 0, a, b => a == b
  | f + 1, a, b => a == b || (parentsOf cs a).any fun p => reachB cs f p b

/-- `b` is an ancestor of (reachable from) `a` in the commit DAG. -/
inductive Reach (cs : List (Nat × List Nat)) : Nat → Nat → Prop where
  | refl (a : Nat) : Reach cs a a
  | step {a b : Nat} (p : Nat) (hp : p ∈ parentsOf cs a) (h : Reach cs p b) : Reach cs a b

/-- Modelled from the spec: the backend merge primitive (section 6), with the
fast-forward semantics of the source narrative's plain `git merge`: if the
target head is already an ancestor of the source head, fast-forward; if the
source head is an ancestor of the target head, the target is already up to
date; otherwise create a two-parent merge commit. -/
def mergeHeads (st : RepoState) (srcHead tgtHead : Nat) : Nat × RepoState :=
  if reachB st.commits st.nextId srcHead tgtHead then (srcHead, st)
  else if reachB st.commits st.nextId tgtHead srcHead then (tgtHead, st)
  else
    (st.nextId,
      RepoState.mk (st.commits ++ [(st.nextId, [tgtHead, srcHead])])
        st.branches st.tags (st.nextId + 1))

/-- The latest existing tag, in creation (append) order. -/
def latestTag (l : List Tag) : Option Tag := l.getLast?

/-- Modelled from the spec: the Release Tagger (section 4.4).
Re-tagging an identical (commit, version) pair is a no-op, not an error;
otherwise the proposed version must strictly exceed the latest existing tag,
else the call fails with NonMonotonicVersion. -/
def tagOp (st : RepoState) (c : Nat) (v : Version) : Except Err RepoState :=
  if Tag.mk v c ∈ st.tags then Except.ok st
  else
    match latestTag st.tags with
    | none =>
      Except.ok (RepoState.mk st.commits st.branches (st.tags ++ [Tag.mk v c]) st.nextId)
    | some t =>
      if versionLt t.version v then
        Except.ok (RepoState.mk st.commits st.branches (st.tags ++ [Tag.mk v c]) st.nextId)
      else Except.error Err.nonMonotonicVersion

/-- Creation-order version sortedness of a tag list. -/
def tagsSorted : List Tag → Bool
  | [] => true
  | [_] => true
  | a :: b :: rest => versionLt a.version b.version && tagsSorted (b :: rest)

/-- Modelled from the spec: an ephemeral merge-intent value object (section 3). -/
structure MergeRequest where
  source : String
  target : String
deriving DecidableEq

/-- Steps 1 and 2 of the Merge Orchestrator (section 4.3): resolve roles via
the Branch Classifier and consult the Policy Engine; reject immediately, with
no backend call, when disallowed. -/
def policyCheck (cfg : Config) (mr : MergeRequest) (st : RepoState) :
    Except Err (BranchRef × BranchRef × Role × Role) :=
  match findBranch st mr.source, findBranch st mr.target with
  | some sb, some tb =>
    match classify cfg sb.name sb.forkedFrom, classify cfg tb.name tb.forkedFrom with
    | Except.ok sr, Except.ok tr =>
      if canMerge sr tr then Except.ok (sb, tb, sr, tr)
      else Except.error Err.mergeNotAllowed
    | _, _ => Except.error Err.classificationFailed
  | _, _ => Except.error Err.refNotFound

/-- Step 6 and 7 of the Merge Orchestrator: hand off to the Release Tagger
when a version was supplied, then delete the (ephemeral) source branch.
A tag failure aborts before the deletion, leaving prior steps intact. -/
def finishUp (ver : Option Version) (src : String) (mainHead : Nat) (st2 : RepoState) :
    Option Err × RepoState :=
  match ver with
  | none => (none, removeBranch st2 src)
  | some v =>
    match tagOp st2 mainHead v with
    | Except.ok st3 => (none, removeBranch st3 src)
    | Except.error e => (some e, st2)

/-- State after step 4 of the Merge Orchestrator: the backend merge of the
source head into the target branch, with the target head advanced. -/
def mainMergeSt (st : RepoState) (sb tb : BranchRef) : RepoState :=
  setHead (mergeHeads st sb.head tb.head).2 tb.name (mergeHeads st sb.head tb.head).1

/-- The new head produced by the first (target-side) merge. -/
def mainMergeHead (st : RepoState) (sb tb : BranchRef) : Nat :=
  (mergeHeads st sb.head tb.head).1

/-- State after step 5: the companion merge of the source head into Develop. -/
def devMergeSt (cfg : Config) (st1 : RepoState) (sb db : BranchRef) : RepoState :=
  setHead (mergeHeads st1 sb.head db.head).2 cfg.developName
    (mergeHeads st1 sb.head db.head).1

/-- The new Develop head produced by the companion merge. -/
def devMergeHead (st1 : RepoState) (sb db : BranchRef) : Nat :=
  (mergeHeads st1 sb.head db.head).1

/-- Steps 3 to 7 of the Merge Orchestrator (section 4.3), after the policy
check has passed.  `cF` and `cS` are conflict oracles: they model the backend
reporting a content conflict on the first (target-side) and second
(companion Develop-side) merge respectively.  The Main-side merge is
performed first; when the companion merge fails the first merge is not
rolled back and the PartialRelease condition (`Err.pairIncomplete`) is
reported. -/
def performMerges (cfg : Config) (cF cS : Bool) (ver : Option Version) (src : String)
    (sb tb : BranchRef) (sr tr : Role) (st : RepoState) : Option Err × RepoState :=
  if cF then (some Err.mergeConflict, st)
  else
    let st1 := mainMergeSt st sb tb
    if pairedMerge sr tr then
      match findBranch st1 cfg.developName with
      | none => (some Err.refNotFound, st1)
      | some db =>
        if cS then (some Err.pairIncomplete, st1)
        else finishUp ver src (mainMergeHead st sb tb) (devMergeSt cfg st1 sb db)
    else (none, removeBranch st1 src)

/-- Modelled from the spec: `execute(MergeRequest)` of the Merge Orchestrator
(section 4.3).  Policy violations are rejected before any backend mutation. -/
def execute (cfg : Config) (cF cS : Bool) (ver : Option Version) (mr : MergeRequest)
    (st : RepoState) : Option Err × RepoState :=
  match policyCheck cfg mr st with
  | Except.error e => (some e, st)
  | Except.ok (sb, tb, sr, tr) => performMerges cfg cF cS ver mr.source sb tb sr tr st

/-- Modelled from the spec: the fork operation (section 4.2, section 6 CLI).
Classifies the parent and requested child, consults the fork table, and
fails with ForkNotAllowed, before any backend mutation, when the parent
role does not admit the child role. -/
def forkOp (cfg : Config) (childName parentName : String) (st : RepoState) :
    Option Err × RepoState :=
  match findBranch st parentName with
  | none => (some Err.refNotFound, st)
  | some pb =>
    match classify cfg pb.name pb.forkedFrom, classify cfg childName (some parentName) with
    | Except.ok pr, Except.ok cr =>
      if cr ∈ canFork pr then
        match findBranch st childName with
        | some _ => (some Err.refExists, st)
        | none =>
          (none,
            RepoState.mk st.commits
              (st.branches ++ [BranchRef.mk childName cr pb.head (some parentName)])
              st.tags st.nextId)
      else (some Err.forkNotAllowed, st)
    | _, _ => (some Err.classificationFailed, st)

/-- Modelled from the spec: the `release finish <branch> <version>` command
(section 6): a paired merge of the release branch into Main and Develop,
plus a version tag on Main's new head. -/
def releaseFinish (cfg : Config) (cF cS : Bool) (rb : String) (v : Version)
    (st : RepoState) : Option Err × RepoState :=
  execute cfg cF cS (some v) (MergeRequest.mk rb cfg.mainName) st

/-- Modelled from the spec: `hotfix finish` is analogous to `release finish`,
sourced from a Maintenance branch (section 6). -/
def hotfixFinish : Config → Bool → Bool → String → Version → RepoState →
    Option Err × RepoState :=
  releaseFinish

/-- Arena well-formedness: every commit id is below the allocation counter
and every parent strictly precedes its child. -/
def below (cs : List (Nat × List Nat)) (n : Nat) : Prop :=
  ∀ pr ∈ cs, pr.1 < n ∧ ∀ p ∈ pr.2, p < pr.1

/-- Branch heads point at allocated commits. -/
def headsBelow (st : RepoState) : Prop :=
  ∀ b ∈ st.branches, b.head < st.nextId

/-- Well-formed repository state. -/
def wfState (st : RepoState) : Prop :=
  below st.commits st.nextId ∧ headsBelow st

/-- Number of branches carrying a given role. -/
def countRole (st : RepoState) (r : Role) : Nat :=
  st.branches.countP fun b => b.role == r

/-- The reserved-name configuration used in the worked example of the source
narrative: historical branches named master and develop. -/
def cfg0 : Config := Config.mk ("master") ("develop")

def bMain0 : BranchRef := BranchRef.mk ("master") Role.main 0 none

def bDev0 : BranchRef := BranchRef.mk ("develop") Role.develop 0 none

/-- A fresh repository: one root commit, historical branches only. -/
def st0 : RepoState := RepoState.mk [(0, [])] [bMain0, bDev0] [] 1

def bRel1 : BranchRef := BranchRef.mk ("release/0.1") Role.release 1 (some ("develop"))

/-- st0 after forking release/0.1 from develop and committing once on it. -/
def stRel : RepoState := RepoState.mk [(0, []), (1, [0])] [bMain0, bDev0, bRel1] [] 2

def bFeat1 : BranchRef := BranchRef.mk ("feature/login") Role.feature 1 (some ("develop"))

/-- st0 after forking feature/login from develop and committing once on it. -/
def stFeat : RepoState := RepoState.mk [(0, []), (1, [0])] [bMain0, bDev0, bFeat1] [] 2

def bFeatX : BranchRef := BranchRef.mk ("feature/x") Role.feature 1 (some ("develop"))

/-- st0 after forking feature/x from develop and committing once on it. -/
def stFeatX : RepoState := RepoState.mk [(0, []), (1, [0])] [bMain0, bDev0, bFeatX] [] 2

def v010 : Version := Version.mk 0 1 0

def v100 : Version := Version.mk 1 0 0

/-- A state whose tag list already carries version 1.0.0 on commit 0. -/
def stTag : RepoState := RepoState.mk [(0, [])] [bMain0, bDev0] [Tag.mk v100 0] 1

theorem below_keys {cs : List (Nat × List Nat)} {n : Nat} (h : below cs n) :
    ∀ pr ∈ cs, pr.1 < n :=
  fun pr hm => (h pr hm).1

theorem below_dec {cs : List (Nat × List Nat)} {n : Nat} (h : below cs n) :
    ∀ pr ∈ cs, ∀ q ∈ pr.2, q < pr.1 :=
  fun pr hm => (h pr hm).2

theorem reachB_sound {cs : List (Nat × List Nat)} {f a b : Nat}
    (h : reachB cs f a b = true) : Reach cs a b := by
  induction f generalizing a with
  | zero =>
    simp only [reachB, beq_iff_eq] at h
    exact h ▸ Reach.refl a
  | succ f ih =>
    simp only [reachB, Bool.or_eq_true, beq_iff_eq, List.any_eq_true] at h
    rcases h with h | ⟨p, hp, hr⟩
    · exact h ▸ Reach.refl a
    · exact Reach.step p hp (ih hr)

theorem parentsOf_mem_lt {cs : List (Nat × List Nat)} {a p : Nat}
    (hdec : ∀ pr ∈ cs, ∀ q ∈ pr.2, q < pr.1) (hp : p ∈ parentsOf cs a) : p < a := by
  unfold parentsOf at hp
  cases hfind : cs.find? (fun pr => pr.1 == a) with
  | none => rw [hfind] at hp; simp at hp
  | some pr =>
    rw [hfind] at hp
    have hm := List.mem_of_find?_eq_some hfind
    have he := List.find?_some hfind
    simp only [beq_iff_eq] at he
    have := hdec pr hm p hp
    omega

theorem reachB_complete {cs : List (Nat × List Nat)}
    (hdec : ∀ pr ∈ cs, ∀ q ∈ pr.2, q < pr.1) {a b : Nat} (h : Reach cs a b) :
    ∀ f, a < f → reachB cs f a b = true := by
  induction h with
  | refl a =>
    intro f hf
    match f, hf with
    | f + 1, _ => simp [reachB]
  | step p hp h ih =>
    intro f hf
    match f, hf with
    | f + 1, hf =>
      have hpa := parentsOf_mem_lt hdec hp
      simp only [reachB, Bool.or_eq_true, List.any_eq_true]
      exact Or.inr ⟨p, hp, ih f (by omega)⟩

theorem Reach.trans {cs : List (Nat × List Nat)} {a b c : Nat}
    (h1 : Reach cs a b) (h2 : Reach cs b c) : Reach cs a c := by
  induction h1 with
  | refl a => exact h2
  | step p hp h ih => exact Reach.step p hp (ih h2)

theorem find?_key_append {cs : List (Nat × List Nat)} {n : Nat} {ps : List Nat} {a : Nat}
    (ha : a ≠ n) :
    (cs ++ [(n, ps)]).find? (fun pr => pr.1 == a) = cs.find? (fun pr => pr.1 == a) := by
  rw [List.find?_append]
  cases h : cs.find? (fun pr => pr.1 == a) with
  | some pr => rfl
  | none =>
    have : (((n, ps) : Nat × List Nat).1 == a) = false := by
      simp [beq_iff_eq]
      omega
    simp [List.find?_cons_of_neg, this]

theorem parentsOf_append {cs : List (Nat × List Nat)} {n : Nat} {ps : List Nat} {a : Nat}
    (ha : a ≠ n) : parentsOf (cs ++ [(n, ps)]) a = parentsOf cs a := by
  unfold parentsOf
  rw [find?_key_append ha]

theorem parentsOf_append_self {cs : List (Nat × List Nat)} {n : Nat} {ps : List Nat}
    (hkeys : ∀ pr ∈ cs, pr.1 < n) : parentsOf (cs ++ [(n, ps)]) n = ps := by
  unfold parentsOf
  rw [List.find?_append]
  have hnone : cs.find? (fun pr => pr.1 == n) = none := by
    rw [List.find?_eq_none]
    intro pr hm
    have := hkeys pr hm
    simp [beq_iff_eq]
    omega
  rw [hnone]
  simp [List.find?_cons_of_pos]

theorem reach_append_mp {cs : List (Nat × List Nat)} {n : Nat} {ps : List Nat}
    (hdec : ∀ pr ∈ cs, ∀ q ∈ pr.2, q < pr.1) {a b : Nat}
    (h : Reach (cs ++ [(n, ps)]) a b) : a < n → Reach cs a b := by
  induction h with
  | refl a => exact fun _ => Reach.refl a
  | step p hp h ih =>
    intro ha
    rw [parentsOf_append (Nat.ne_of_lt ha)] at hp
    have hpa := parentsOf_mem_lt hdec hp
    exact Reach.step p hp (ih (by omega))

theorem reach_append_mpr {cs : List (Nat × List Nat)} {n : Nat} {ps : List Nat}
    (hdec : ∀ pr ∈ cs, ∀ q ∈ pr.2, q < pr.1) {a b : Nat}
    (h : Reach cs a b) : a < n → Reach (cs ++ [(n, ps)]) a b := by
  induction h with
  | refl a => exact fun _ => Reach.refl a
  | step p hp h ih =>
    intro ha
    have hpa := parentsOf_mem_lt hdec hp
    refine Reach.step p ?_ (ih (by omega))
    rw [parentsOf_append (Nat.ne_of_lt ha)]
    exact hp

theorem mergeHeads_branches (st : RepoState) (s t : Nat) :
    (mergeHeads st s t).2.branches = st.branches := by
  unfold mergeHeads
  split
  · rfl
  split <;> rfl

theorem mergeHeads_tags (st : RepoState) (s t : Nat) :
    (mergeHeads st s t).2.tags = st.tags := by
  unfold mergeHeads
  split
  · rfl
  split <;> rfl

theorem mergeHeads_nextId_le (st : RepoState) (s t : Nat) :
    st.nextId ≤ (mergeHeads st s t).2.nextId := by
  unfold mergeHeads
  split
  · exact Nat.le_refl _
  split
  · exact Nat.le_refl _
  · exact Nat.le_succ _

theorem mergeHeads_cases (st : RepoState) (s t : Nat) :
    (mergeHeads st s t).2 = st ∨
      ((mergeHeads st s t).1 = st.nextId ∧
        (mergeHeads st s t).2.commits = st.commits ++ [(st.nextId, [t, s])] ∧
        (mergeHeads st s t).2.nextId = st.nextId + 1) := by
  unfold mergeHeads
  by_cases h1 : reachB st.commits st.nextId s t = true
  · rw [if_pos h1]
    exact Or.inl rfl
  · rw [if_neg h1]
    by_cases h2 : reachB st.commits st.nextId t s = true
    · rw [if_pos h2]
      exact Or.inl rfl
    · rw [if_neg h2]
      exact Or.inr ⟨rfl, rfl, rfl⟩

theorem mergeHeads_reaches (st : RepoState) (s t : Nat)
    (hkeys : ∀ pr ∈ st.commits, pr.1 < st.nextId) :
    Reach (mergeHeads st s t).2.commits (mergeHeads st s t).1 s ∧
    Reach (mergeHeads st s t).2.commits (mergeHeads st s t).1 t := by
  unfold mergeHeads
  by_cases h1 : reachB st.commits st.nextId s t = true
  · rw [if_pos h1]
    exact ⟨Reach.refl s, reachB_sound h1⟩
  · rw [if_neg h1]
    by_cases h2 : reachB st.commits st.nextId t s = true
    · rw [if_pos h2]
      exact ⟨reachB_sound h2, Reach.refl t⟩
    · rw [if_neg h2]
      constructor
      · refine Reach.step s ?_ (Reach.refl s)
        rw [parentsOf_append_self hkeys]
        simp
      · refine Reach.step t ?_ (Reach.refl t)
        rw [parentsOf_append_self hkeys]
        simp

theorem mergeHeads_below (st : RepoState) (s t : Nat)
    (hb : below st.commits st.nextId) (hs : s < st.nextId) (ht : t < st.nextId) :
    below (mergeHeads st s t).2.commits (mergeHeads st s t).2.nextId := by
  rcases mergeHeads_cases st s t with h | ⟨h1, h2, h3⟩
  · rw [h]
    exact hb
  · rw [h2, h3]
    intro pr hm
    rcases List.mem_append.mp hm with hm | hm
    · have := hb pr hm
      exact ⟨by omega, fun q hq => (this.2 q hq)⟩
    · simp only [List.mem_singleton] at hm
      subst hm
      refine ⟨by omega, ?_⟩
      intro q hq
      simp only [List.mem_cons, List.mem_singleton] at hq
      rcases hq with hq | hq | hq
      · omega
      · omega
      · simp at hq

theorem mergeHeads_head_lt (st : RepoState) (s t : Nat)
    (hs : s < st.nextId) (ht : t < st.nextId) :
    (mergeHeads st s t).1 < (mergeHeads st s t).2.nextId := by
  unfold mergeHeads
  by_cases h1 : reachB st.commits st.nextId s t = true
  · rw [if_pos h1]
    exact hs
  · rw [if_neg h1]
    by_cases h2 : reachB st.commits st.nextId t s = true
    · rw [if_pos h2]
      exact ht
    · rw [if_neg h2]
      exact Nat.lt_succ_self _

theorem mergeHeads_reach_transfer (st : RepoState) (s t : Nat)
    (hb : below st.commits st.nextId) {a b : Nat} (ha : a < st.nextId)
    (h : Reach st.commits a b) : Reach (mergeHeads st s t).2.commits a b := by
  rcases mergeHeads_cases st s t with hc | ⟨h1, h2, h3⟩
  · rw [hc]
    exact h
  · rw [h2]
    exact reach_append_mpr (below_dec hb) h ha

theorem findBranch_name {st : RepoState} {n : String} {b : BranchRef}
    (h : findBranch st n = some b) : b.name = n := by
  have := List.find?_some h
  simpa [beq_iff_eq] using this

theorem findBranch_mem {st : RepoState} {n : String} {b : BranchRef}
    (h : findBranch st n = some b) : b ∈ st.branches :=
  List.mem_of_find?_eq_some h

theorem setHead_commits (st : RepoState) (n : String) (h : Nat) :
    (setHead st n h).commits = st.commits := rfl

theorem setHead_tags (st : RepoState) (n : String) (h : Nat) :
    (setHead st n h).tags = st.tags := rfl

theorem setHead_nextId (st : RepoState) (n : String) (h : Nat) :
    (setHead st n h).nextId = st.nextId := rfl

theorem removeBranch_commits (st : RepoState) (n : String) :
    (removeBranch st n).commits = st.commits := rfl

theorem removeBranch_nextId (st : RepoState) (n : String) :
    (removeBranch st n).nextId = st.nextId := rfl

theorem findBranch_setHead (st : RepoState) (n : String) (h : Nat) (m : String) :
    findBranch (setHead st n h) m =
      (findBranch st m).map fun b =>
        if b.name == n then BranchRef.mk b.name b.role h b.forkedFrom else b := by
  unfold findBranch setHead
  show List.find? _ (st.branches.map _) = _
  rw [List.find?_map]
  have hp : ((fun b : BranchRef => b.name == m) ∘ fun b : BranchRef =>
      if b.name == n then BranchRef.mk b.name b.role h b.forkedFrom else b)
      = fun b : BranchRef => b.name == m := by
    funext b
    show ((if b.name == n then BranchRef.mk b.name b.role h b.forkedFrom else b).name == m)
        = (b.name == m)
    split <;> rfl
  rw [hp]

theorem findBranch_setHead_ne {st : RepoState} {n : String} {h : Nat} {m : String}
    (hne : m ≠ n) : findBranch (setHead st n h) m = findBranch st m := by
  rw [findBranch_setHead]
  cases hf : findBranch st m with
  | none => rfl
  | some b =>
    have hb := findBranch_name hf
    rw [Option.map_some', if_neg]
    simp only [beq_iff_eq, hb]
    exact hne

theorem findBranch_setHead_self {st : RepoState} {n : String} {h : Nat} {b : BranchRef}
    (hf : findBranch st n = some b) :
    findBranch (setHead st n h) n = some (BranchRef.mk b.name b.role h b.forkedFrom) := by
  rw [findBranch_setHead, hf]
  have hb := findBranch_name hf
  rw [Option.map_some', if_pos]
  simp only [beq_iff_eq, hb]

theorem find_filter_none (n : String) (l : List BranchRef) :
    (l.filter fun b => b.name != n).find? (fun b => b.name == n) = none := by
  induction l with
  | nil => rfl
  | cons b l ih =>
    rw [List.filter_cons]
    by_cases hb : b.name = n
    · have : (b.name != n) = false := by simp [bne_iff_ne, hb]
      rw [this]
      simp only [Bool.false_eq_true, if_false]
      exact ih
    · have h1 : (b.name != n) = true := by simp [bne_iff_ne]; exact hb
      rw [h1]
      simp only [if_pos]
      rw [List.find?_cons_of_neg]
      · exact ih
      · simp [beq_iff_eq]
        exact hb

theorem findBranch_removeBranch_self (st : RepoState) (n : String) :
    findBranch (removeBranch st n) n = none := by
  unfold findBranch removeBranch
  exact find_filter_none n st.branches

theorem findBranch_removeBranch_ne {st : RepoState} {n m : String} (hne : m ≠ n) :
    findBranch (removeBranch st n) m = findBranch st m := by
  unfold findBranch removeBranch
  show List.find? _ (st.branches.filter _) = _
  induction st.branches with
  | nil => rfl
  | cons b l ih =>
    rw [List.filter_cons]
    by_cases hb : b.name = n
    · have hc1 : (b.name != n) = false := by simp [bne_iff_ne, hb]
      rw [hc1]
      simp only [Bool.false_eq_true, if_false]
      rw [ih]
      have hc2 : (b.name == m) = false := by
        simp [beq_iff_eq, hb]
        exact fun he => hne he.symm
      rw [List.find?_cons_of_neg _ (by simp [hc2])]
    · have hc1 : (b.name != n) = true := by simp [bne_iff_ne]; exact hb
      rw [hc1]
      simp only [if_pos]
      by_cases hm : b.name = m
      · rw [List.find?_cons_of_pos _ (by simp [beq_iff_eq, hm]),
          List.find?_cons_of_pos _ (by simp [beq_iff_eq, hm])]
      · rw [List.find?_cons_of_neg _ (by simp [beq_iff_eq]; exact hm),
          List.find?_cons_of_neg _ (by simp [beq_iff_eq]; exact hm)]
        exact ih

theorem tagOp_ok_parts {st : RepoState} {c : Nat} {v : Version} {st' : RepoState}
    (h : tagOp st c v = Except.ok st') :
    st'.commits = st.commits ∧ st'.branches = st.branches ∧ st'.nextId = st.nextId := by
  unfold tagOp at h
  split at h
  · cases h
    exact ⟨rfl, rfl, rfl⟩
  · split at h
    · cases h
      exact ⟨rfl, rfl, rfl⟩
    · split at h
      · cases h
        exact ⟨rfl, rfl, rfl⟩
      · cases h

theorem tagOp_error_eq {st : RepoState} {c : Nat} {v : Version} {e : Err}
    (h : tagOp st c v = Except.error e) : e = Err.nonMonotonicVersion := by
  unfold tagOp at h
  split at h
  · cases h
  · split at h
    · cases h
    · split at h
      · cases h
      · cases h
        rfl

theorem policyCheck_elim {cfg : Config} {mr : MergeRequest} {st : RepoState}
    {sb tb : BranchRef} {sr tr : Role}
    (h : policyCheck cfg mr st = Except.ok (sb, tb, sr, tr)) :
    findBranch st mr.source = some sb ∧ findBranch st mr.target = some tb ∧
    classify cfg sb.name sb.forkedFrom = Except.ok sr ∧
    classify cfg tb.name tb.forkedFrom = Except.ok tr ∧ canMerge sr tr = true := by
  unfold policyCheck at h
  split at h
  · rename_i sb' tb' hfs hft
    split at h
    · rename_i sr' tr' hsr htr
      split at h
      · rename_i hcm
        simp only [Except.ok.injEq, Prod.mk.injEq] at h
        obtain ⟨h1, h2, h3, h4⟩ := h
        subst h1
        subst h2
        subst h3
        subst h4
        exact ⟨hfs, hft, hsr, htr, hcm⟩
      · exact Except.noConfusion h
    · exact Except.noConfusion h
  · exact Except.noConfusion h

theorem policyCheck_intro {cfg : Config} {mr : MergeRequest} {st : RepoState}
    {sb tb : BranchRef} {sr tr : Role}
    (hfs : findBranch st mr.source = some sb) (hft : findBranch st mr.target = some tb)
    (hsr : classify cfg sb.name sb.forkedFrom = Except.ok sr)
    (htr : classify cfg tb.name tb.forkedFrom = Except.ok tr)
    (hcm : canMerge sr tr = true) :
    policyCheck cfg mr st = Except.ok (sb, tb, sr, tr) := by
  unfold policyCheck
  rw [hfs, hft]
  simp only [hsr, htr, hcm, if_true]

theorem exec_policy_error {cfg : Config} {cF cS : Bool} {ver : Option Version}
    {mr : MergeRequest} {st : RepoState} {e : Err}
    (hpc : policyCheck cfg mr st = Except.error e) :
    execute cfg cF cS ver mr st = (some e, st) := by
  unfold execute
  rw [hpc]

theorem exec_conflict_shape {cfg : Config} {cS : Bool} {ver : Option Version}
    {mr : MergeRequest} {st : RepoState} {sb tb : BranchRef} {sr tr : Role}
    (hpc : policyCheck cfg mr st = Except.ok (sb, tb, sr, tr)) :
    execute cfg true cS ver mr st = (some Err.mergeConflict, st) := by
  unfold execute
  rw [hpc]
  rfl

theorem exec_pairIncomplete_shape {cfg : Config} {ver : Option Version}
    {mr : MergeRequest} {st : RepoState} {sb tb db : BranchRef} {sr tr : Role}
    (hpc : policyCheck cfg mr st = Except.ok (sb, tb, sr, tr))
    (hpm : pairedMerge sr tr = true)
    (hdb : findBranch (mainMergeSt st sb tb) cfg.developName = some db) :
    execute cfg false true ver mr st = (some Err.pairIncomplete, mainMergeSt st sb tb) := by
  unfold execute
  rw [hpc]
  unfold performMerges
  simp only [Bool.false_eq_true, if_false, hpm, if_true, hdb]

theorem exec_success_unpaired {cfg : Config} {cF cS : Bool} {ver : Option Version}
    {mr : MergeRequest} {st out : RepoState} {sb tb : BranchRef} {sr tr : Role}
    (hpc : policyCheck cfg mr st = Except.ok (sb, tb, sr, tr))
    (hpm : pairedMerge sr tr = false)
    (h : execute cfg cF cS ver mr st = (none, out)) :
    out = removeBranch (mainMergeSt st sb tb) mr.source := by
  unfold execute at h
  rw [hpc] at h
  unfold performMerges at h
  cases cF with
  | true => simp at h
  | false =>
    simp only [Bool.false_eq_true, if_false, hpm] at h
    simp only [Prod.mk.injEq] at h
    exact h.2.symm

theorem exec_success_paired {cfg : Config} {cF cS : Bool} {ver : Option Version}
    {mr : MergeRequest} {st out : RepoState} {sb tb : BranchRef} {sr tr : Role}
    (hpc : policyCheck cfg mr st = Except.ok (sb, tb, sr, tr))
    (hpm : pairedMerge sr tr = true)
    (h : execute cfg cF cS ver mr st = (none, out)) :
    ∃ db : BranchRef,
      findBranch (mainMergeSt st sb tb) cfg.developName = some db ∧
      out.commits = (devMergeSt cfg (mainMergeSt st sb tb) sb db).commits ∧
      out.nextId = (devMergeSt cfg (mainMergeSt st sb tb) sb db).nextId ∧
      out.branches = (devMergeSt cfg (mainMergeSt st sb tb) sb db).branches.filter
        (fun b => b.name != mr.source) := by
  unfold execute at h
  rw [hpc] at h
  unfold performMerges at h
  cases cF with
  | true => simp at h
  | false =>
    simp only [Bool.false_eq_true, if_false, hpm, if_true] at h
    cases hdb : findBranch (mainMergeSt st sb tb) cfg.developName <;> rw [hdb] at h
    · simp at h
    · rename_i db
      cases cS with
      | true => simp at h
      | false =>
        simp only [Bool.false_eq_true, if_false] at h
        refine ⟨db, rfl, ?_⟩
        unfold finishUp at h
        split at h
        · simp only [Prod.mk.injEq] at h
          rw [← h.2]
          exact ⟨rfl, rfl, rfl⟩
        · split at h
          · rename_i st3 htag
            simp only [Prod.mk.injEq] at h
            obtain ⟨hto1, hto2, hto3⟩ := tagOp_ok_parts htag
            rw [← h.2]
            refine ⟨hto1, hto3, ?_⟩
            show st3.branches.filter _ = _
            rw [hto2]
          · simp at h

theorem performMerges_err_mem {cfg : Config} {cF cS : Bool} {ver : Option Version}
    {src : String} {sb tb : BranchRef} {sr tr : Role} {st : RepoState} {e : Err}
    {st' : RepoState}
    (h : performMerges cfg cF cS ver src sb tb sr tr st = (some e, st')) :
    e = Err.mergeConflict ∨ e = Err.refNotFound ∨ e = Err.pairIncomplete ∨
    e = Err.nonMonotonicVersion := by
  unfold performMerges at h
  split at h
  · simp only [Prod.mk.injEq, Option.some.injEq] at h
    exact Or.inl h.1.symm
  · split at h
    · split at h
      · cases hdb : findBranch (mainMergeSt st sb tb) cfg.developName with
        | none =>
          simp only [hdb, Prod.mk.injEq, Option.some.injEq] at h
          exact Or.inr (Or.inl h.1.symm)
        | some db =>
          simp only [hdb, Prod.mk.injEq, Option.some.injEq] at h
          exact Or.inr (Or.inr (Or.inl h.1.symm))
      · cases hdb : findBranch (mainMergeSt st sb tb) cfg.developName with
        | none =>
          simp only [hdb, Prod.mk.injEq, Option.some.injEq] at h
          exact Or.inr (Or.inl h.1.symm)
        | some db =>
          simp only [hdb] at h
          unfold finishUp at h
          split at h
          · simp at h
          · split at h
            · simp at h
            · rename_i htag
              simp only [Prod.mk.injEq, Option.some.injEq] at h
              exact Or.inr (Or.inr (Or.inr (by rw [← h.1]; exact tagOp_error_eq htag)))
    · simp at h

theorem featPre_data : featPre.data = 'f' :: ['e', 'a', 't', 'u', 'r', 'e', '/'] := rfl

theorem relPre_data : relPre.data = 'r' :: ['e', 'l', 'e', 'a', 's', 'e', '/'] := rfl

theorem hotPre_data : hotPre.data = 'h' :: ['o', 't', 'f', 'i', 'x', '/'] := rfl

theorem maintPre_data :
    maintPre.data = 'm' :: ['a', 'i', 'n', 't', 'e', 'n', 'a', 'n', 'c', 'e', '/'] := rfl

theorem startsWith_excl {s p q : String} {a b : Char} {ps qs : List Char}
    (hp : p.data = a :: ps) (hq : q.data = b :: qs) (hne : a ≠ b)
    (h : startsWithP s p = true) : startsWithP s q = false := by
  unfold startsWithP at h ⊢
  rw [hp] at h
  rw [hq]
  rw [List.isPrefixOf_iff_prefix] at h
  by_contra hb
  simp only [Bool.not_eq_false] at hb
  rw [List.isPrefixOf_iff_prefix] at hb
  rcases List.prefix_or_prefix_of_prefix h hb with hc | hc
  · rw [List.cons_prefix_cons] at hc
    exact hne hc.1
  · rw [List.cons_prefix_cons] at hc
    exact hne hc.1.symm

/-- C1: for every pair of roles, the Policy Engine's canMerge with a Feature
source returns true only when the target role is Develop; in particular
canMerge(Feature, Main) is false. -/
theorem claim1_feature_merges_only_into_develop :
    (∀ t : Role, canMerge Role.feature t = true ↔ t = Role.develop) ∧
    canMerge Role.feature Role.main = false := by
  decide

theorem claim1_witness : canMerge Role.feature Role.develop = true :=
  (claim1_feature_merges_only_into_develop.1 Role.develop).mpr rfl

/-- C2: canFork returns exactly Main → {Maintenance}, Develop → {Feature,
Release}, Release → {} and Maintenance → {}; a fork attempt whose parent role
does not admit the requested child role fails with ForkNotAllowed, leaving
the repository untouched. -/
theorem claim2_canFork_table :
    canFork Role.main = [Role.maintenance] ∧
    canFork Role.develop = [Role.feature, Role.release] ∧
    canFork Role.release = [] ∧
    canFork Role.maintenance = [] ∧
    ∀ (cfg : Config) (child parent : String) (st : RepoState) (pb : BranchRef)
      (pr cr : Role),
      findBranch st parent = some pb →
      classify cfg pb.name pb.forkedFrom = Except.ok pr →
      classify cfg child (some parent) = Except.ok cr →
      cr ∉ canFork pr →
      forkOp cfg child parent st = (some Err.forkNotAllowed, st) := by
  refine ⟨rfl, rfl, rfl, rfl, ?_⟩
  intro cfg child parent st pb pr cr hfp hpr hcr hmem
  unfold forkOp
  rw [hfp]
  simp only [hpr, hcr]
  rw [if_neg hmem]

theorem claim2_witness :
    forkOp cfg0 ("feature/y") ("release/0.1") stRel = (some Err.forkNotAllowed, stRel) :=
  claim2_canFork_table.2.2.2.2 cfg0 ("feature/y") ("release/0.1") stRel bRel1
    Role.release Role.feature (by decide) (by decide) (by decide) (by decide)

/-- C8: the Branch Classifier is a pure function of (name, lineage): a name
with prefix feature/ maps to Feature, release/ to Release, hotfix/ or
maintenance/ to Maintenance; a name with no recognized prefix and no
fork-parent maps to Main or Develop exactly when it is one of the two
configured reserved names; every other name fails with ClassificationError. -/
theorem claim8_classifier :
    ∀ (cfg : Config) (name : String) (fp : Option String),
      (startsWithP name featPre = true → classify cfg name fp = Except.ok Role.feature) ∧
      (startsWithP name relPre = true → classify cfg name fp = Except.ok Role.release) ∧
      (startsWithP name hotPre = true ∨ startsWithP name maintPre = true →
        classify cfg name fp = Except.ok Role.maintenance) ∧
      (startsWithP name featPre = false → startsWithP name relPre = false →
        startsWithP name hotPre = false → startsWithP name maintPre = false →
        ((fp = none ∧ (name = cfg.mainName ∨ name = cfg.developName)) ↔
          (classify cfg name fp = Except.ok Role.main ∨
            classify cfg name fp = Except.ok Role.develop))) ∧
      (startsWithP name featPre = false → startsWithP name relPre = false →
        startsWithP name hotPre = false → startsWithP name maintPre = false →
        (fp ≠ none ∨ (name ≠ cfg.mainName ∧ name ≠ cfg.developName)) →
        classify cfg name fp = Except.error Err.classificationFailed) := by
  intro cfg name fp
  refine ⟨?_, ?_, ?_, ?_, ?_⟩
  · intro h
    unfold classify
    rw [if_pos h]
  · intro h
    have hf : startsWithP name featPre = false :=
      startsWith_excl relPre_data featPre_data (by decide) h
    unfold classify
    rw [if_neg (by simp [hf]), if_pos h]
  · intro h
    have hfr : startsWithP name featPre = false ∧ startsWithP name relPre = false := by
      rcases h with h | h
      · exact ⟨startsWith_excl hotPre_data featPre_data (by decide) h,
          startsWith_excl hotPre_data relPre_data (by decide) h⟩
      · exact ⟨startsWith_excl maintPre_data featPre_data (by decide) h,
          startsWith_excl maintPre_data relPre_data (by decide) h⟩
    unfold classify
    rw [if_neg (by simp [hfr.1]), if_neg (by simp [hfr.2]), if_pos (by
      rcases h with h | h
      · simp [h]
      · simp [h])]
  · intro h1 h2 h3 h4
    unfold classify
    rw [if_neg (by simp [h1]), if_neg (by simp [h2]), if_neg (by simp [h3, h4])]
    constructor
    · rintro ⟨hfp, hn⟩
      subst hfp
      rcases hn with hn | hn
      · left
        rw [if_pos hn]
      · by_cases hm : name = cfg.mainName
        · left
          rw [if_pos hm]
        · right
          rw [if_neg hm, if_pos hn]
    · intro hor
      cases fp with
      | some s =>
        rcases hor with h | h <;> exact Except.noConfusion h
      | none =>
        refine ⟨rfl, ?_⟩
        by_cases hm : name = cfg.mainName
        · exact Or.inl hm
        · by_cases hd : name = cfg.developName
          · exact Or.inr hd
          · rcases hor with h | h <;>
              (rw [if_neg hm, if_neg hd] at h; exact Except.noConfusion h)
  · intro h1 h2 h3 h4 hne
    unfold classify
    rw [if_neg (by simp [h1]), if_neg (by simp [h2]), if_neg (by simp [h3, h4])]
    cases fp with
    | some s => rfl
    | none =>
      rcases hne with hne | ⟨hm, hd⟩
      · exact absurd rfl hne
      · rw [if_neg hm, if_neg hd]

theorem tagsSorted_append (x : Tag) :
    ∀ l : List Tag, tagsSorted l = true →
      (∀ t, latestTag l = some t → versionLt t.version x.version = true) →
      tagsSorted (l ++ [x]) = true := by
  intro l
  induction l with
  | nil => intro _ _; rfl
  | cons a l ih =>
    intro hs hl
    cases l with
    | nil =>
      have hx := hl a (by simp [latestTag])
      simp [tagsSorted, hx]
    | cons b r =>
      simp only [tagsSorted, Bool.and_eq_true] at hs
      have hx : ∀ t, latestTag (b :: r) = some t → versionLt t.version x.version = true := by
        intro t ht
        apply hl
        unfold latestTag at ht ⊢
        rw [List.getLast?_cons_cons]
        exact ht
      have hrec := ih hs.2 hx
      simp only [List.cons_append] at hrec ⊢
      simp only [tagsSorted, Bool.and_eq_true]
      exact ⟨hs.1, by simpa using hrec⟩

/-- C7: calling tag(c, v) twice with identical arguments succeeds both times,
and afterwards exactly one Tag with (c, v) exists: re-tagging an identical
(commit, version) pair is a no-op rather than an error. -/
theorem claim7_tag_idempotent :
    ∀ (st : RepoState) (c : Nat) (v : Version) (st' : RepoState),
      tagOp st c v = Except.ok st' →
      tagOp st' c v = Except.ok st' ∧ Tag.mk v c ∈ st'.tags ∧
      (Tag.mk v c ∉ st.tags → st'.tags.count (Tag.mk v c) = 1) := by
  intro st c v st' h
  unfold tagOp at h
  by_cases hmem : Tag.mk v c ∈ st.tags
  · rw [if_pos hmem] at h
    cases h
    refine ⟨?_, hmem, fun hn => absurd hmem hn⟩
    unfold tagOp
    rw [if_pos hmem]
  · rw [if_neg hmem] at h
    have hfin : st' = RepoState.mk st.commits st.branches (st.tags ++ [Tag.mk v c])
        st.nextId := by
      cases hl : latestTag st.tags with
      | none =>
        simp only [hl] at h
        cases h
        rfl
      | some t =>
        simp only [hl] at h
        by_cases hv : versionLt t.version v = true
        · rw [if_pos hv] at h
          cases h
          rfl
        · rw [if_neg hv] at h
          exact Except.noConfusion h
    subst hfin
    have hm : Tag.mk v c ∈ st.tags ++ [Tag.mk v c] := by simp
    refine ⟨?_, hm, ?_⟩
    · unfold tagOp
      rw [if_pos hm]
    · intro _
      show (st.tags ++ [Tag.mk v c]).count (Tag.mk v c) = 1
      rw [List.count_append]
      rw [List.count_eq_zero.mpr hmem]
      simp

theorem claim7_witness :
    tagOp (RepoState.mk [(0, [])] [bMain0, bDev0] [Tag.mk v010 1] 1) 1 v010 =
      Except.ok (RepoState.mk [(0, [])] [bMain0, bDev0] [Tag.mk v010 1] 1) ∧
    (RepoState.mk [(0, [])] [bMain0, bDev0] [Tag.mk v010 1] 1).tags.count (Tag.mk v010 1)
      = 1 := by
  have h := claim7_tag_idempotent st0 1 v010
    (RepoState.mk [(0, [])] [bMain0, bDev0] [Tag.mk v010 1] 1) (by decide)
  exact ⟨h.1, h.2.2 (by decide)⟩

/-- C6 as written is violated by the idempotent re-tag path: re-tagging the
latest existing (commit, version) pair succeeds although the proposed version
is not strictly greater than the latest tag's version. -/
theorem claim6_counterexample :
    tagOp stTag 0 v100 = Except.ok stTag ∧ versionLt v100 v100 = false ∧
    latestTag stTag.tags = some (Tag.mk v100 0) := by
  decide

/-- C6 amended: tag(commit, v) fails with NonMonotonicVersion exactly when
(commit, v) is not already an existing tag and v is not strictly greater than
the latest existing tag's version; and every successful call keeps the tag
list strictly increasing in creation order. -/
theorem claim6_amended_monotonic :
    ∀ (st : RepoState) (c : Nat) (v : Version),
      (tagOp st c v = Except.error Err.nonMonotonicVersion ↔
        (Tag.mk v c ∉ st.tags ∧
          ∃ t, latestTag st.tags = some t ∧ versionLt t.version v = false)) ∧
      (tagsSorted st.tags = true → ∀ st', tagOp st c v = Except.ok st' →
        tagsSorted st'.tags = true) := by
  intro st c v
  constructor
  · constructor
    · intro h
      unfold tagOp at h
      by_cases hmem : Tag.mk v c ∈ st.tags
      · rw [if_pos hmem] at h
        exact Except.noConfusion h
      · rw [if_neg hmem] at h
        cases hl : latestTag st.tags with
        | none =>
          simp only [hl] at h
          exact Except.noConfusion h
        | some t =>
          simp only [hl] at h
          by_cases hv : versionLt t.version v = true
          · rw [if_pos hv] at h
            exact Except.noConfusion h
          · refine ⟨hmem, t, rfl, ?_⟩
            simpa using hv
    · rintro ⟨hmem, t, hl, hv⟩
      unfold tagOp
      rw [if_neg hmem]
      simp only [hl]
      rw [if_neg (by simp [hv])]
  · intro hs st' h
    unfold tagOp at h
    by_cases hmem : Tag.mk v c ∈ st.tags
    · rw [if_pos hmem] at h
      cases h
      exact hs
    · rw [if_neg hmem] at h
      cases hl : latestTag st.tags with
      | none =>
        simp only [hl] at h
        cases h
        exact tagsSorted_append (Tag.mk v c) st.tags hs
          (fun t ht => by rw [hl] at ht; exact Option.noConfusion ht)
      | some t =>
        simp only [hl] at h
        by_cases hv : versionLt t.version v = true
        · rw [if_pos hv] at h
          cases h
          exact tagsSorted_append (Tag.mk v c) st.tags hs
            (fun u hu => by rw [hl] at hu; cases hu; exact hv)
        · rw [if_neg hv] at h
          exact Except.noConfusion h

theorem claim6_witness :
    tagOp stTag 1 v100 = Except.error Err.nonMonotonicVersion :=
  (claim6_amended_monotonic stTag 1 v100).1.mpr
    ⟨by decide, Tag.mk v100 0, by decide, by decide⟩

theorem forkOp_err_state {cfg : Config} {child parent : String} {st : RepoState}
    {e : Err} {st' : RepoState}
    (h : forkOp cfg child parent st = (some e, st')) : st' = st := by
  unfold forkOp at h
  split at h
  · simp only [Prod.mk.injEq, Option.some.injEq] at h
    exact h.2.symm
  · split at h
    · split at h
      · split at h
        · simp only [Prod.mk.injEq, Option.some.injEq] at h
          exact h.2.symm
        · simp at h
      · simp only [Prod.mk.injEq, Option.some.injEq] at h
        exact h.2.symm
    · simp only [Prod.mk.injEq, Option.some.injEq] at h
      exact h.2.symm

theorem execute_policy_err_state {cfg : Config} {cF cS : Bool} {ver : Option Version}
    {mr : MergeRequest} {st : RepoState} {e : Err} {st' : RepoState}
    (h : execute cfg cF cS ver mr st = (some e, st'))
    (he : e = Err.mergeNotAllowed ∨ e = Err.classificationFailed ∨ e = Err.forkNotAllowed) :
    st' = st := by
  unfold execute at h
  split at h
  · simp only [Prod.mk.injEq, Option.some.injEq] at h
    exact h.2.symm
  · exfalso
    rcases performMerges_err_mem h with h' | h' | h' | h' <;> subst h' <;>
      rcases he with he | he | he <;> exact Err.noConfusion he

/-- C5: every MergeRequest or fork request rejected with a PolicyViolation
error (ForkNotAllowed, MergeNotAllowed, or ClassificationError) performs no
backend mutation: the repository state is identical before and after the
call; in particular landing feature/x directly into master fails with
MergeNotAllowed and leaves the state untouched. -/
theorem claim5_policy_violation_no_mutation :
    (∀ (cfg : Config) (cF cS : Bool) (ver : Option Version) (mr : MergeRequest)
      (st : RepoState) (e : Err),
      (execute cfg cF cS ver mr st).1 = some e →
      (e = Err.mergeNotAllowed ∨ e = Err.classificationFailed ∨ e = Err.forkNotAllowed) →
      (execute cfg cF cS ver mr st).2 = st) ∧
    (∀ (cfg : Config) (child parent : String) (st : RepoState) (e : Err),
      (forkOp cfg child parent st).1 = some e →
      (e = Err.forkNotAllowed ∨ e = Err.mergeNotAllowed ∨ e = Err.classificationFailed) →
      (forkOp cfg child parent st).2 = st) ∧
    execute cfg0 false false none (MergeRequest.mk ("feature/x") ("master")) stFeatX
      = (some Err.mergeNotAllowed, stFeatX) := by
  refine ⟨?_, ?_, by decide⟩
  · intro cfg cF cS ver mr st e h1 h2
    cases hx : execute cfg cF cS ver mr st with
    | mk r s2 =>
      rw [hx] at h1
      simp only at h1
      subst h1
      exact execute_policy_err_state hx h2
  · intro cfg child parent st e h1 h2
    cases hx : forkOp cfg child parent st with
    | mk r s2 =>
      rw [hx] at h1
      simp only at h1
      subst h1
      exact forkOp_err_state hx

theorem claim5_witness :
    (execute cfg0 false false none (MergeRequest.mk ("feature/x") ("master")) stFeatX).2
      = stFeatX :=
  claim5_policy_violation_no_mutation.1 cfg0 false false none
    (MergeRequest.mk ("feature/x") ("master")) stFeatX Err.mergeNotAllowed (by decide)
    (Or.inl rfl)

theorem findBranch_congr {st st' : RepoState} (h : st.branches = st'.branches)
    (n : String) : findBranch st n = findBranch st' n := by
  unfold findBranch
  rw [h]

/-- C4: in every paired merge the Main-side merge is performed before the
Develop-side merge: when the companion merge fails, the returned state has
the target (Main) head already advanced to the backend merge result, the
operation reports PartialRelease, the first merge is not rolled back, and
every branch other than the merge target is bitwise unchanged (so its role
and fork-point, hence invariants 3 to 5, are untouched); and when the first
merge itself fails, no state change happens at all. -/
theorem claim4_paired_ordering :
    ∀ (cfg : Config) (ver : Option Version) (mr : MergeRequest) (st : RepoState)
      (sb tb db : BranchRef) (sr tr : Role),
      policyCheck cfg mr st = Except.ok (sb, tb, sr, tr) →
      pairedMerge sr tr = true →
      findBranch st cfg.developName = some db →
      cfg.developName ≠ mr.target →
      ((execute cfg false true ver mr st).1 = some Err.pairIncomplete ∧
        headOf (execute cfg false true ver mr st).2 mr.target = mainMergeHead st sb tb ∧
        (∀ n, n ≠ mr.target →
          findBranch (execute cfg false true ver mr st).2 n = findBranch st n) ∧
        (∀ cS, execute cfg true cS ver mr st = (some Err.mergeConflict, st))) := by
  intro cfg ver mr st sb tb db sr tr hpc hpm hdb hne
  obtain ⟨hfs, hft, hsr, htr, hcm⟩ := policyCheck_elim hpc
  have htbname : tb.name = mr.target := findBranch_name hft
  have hdb1 : findBranch (mainMergeSt st sb tb) cfg.developName = some db := by
    unfold mainMergeSt
    rw [findBranch_setHead_ne (by rw [htbname]; exact hne)]
    rw [findBranch_congr (mergeHeads_branches st sb.head tb.head) cfg.developName]
    exact hdb
  have hexec := @exec_pairIncomplete_shape cfg ver mr st sb tb db sr tr hpc hpm hdb1
  rw [hexec]
  refine ⟨rfl, ?_, ?_, ?_⟩
  · show headOf (mainMergeSt st sb tb) mr.target = mainMergeHead st sb tb
    have hft2 : findBranch (mergeHeads st sb.head tb.head).2 tb.name = some tb := by
      rw [findBranch_congr (mergeHeads_branches st sb.head tb.head)]
      rw [htbname]
      exact hft
    unfold headOf mainMergeSt mainMergeHead
    rw [← htbname, findBranch_setHead_self hft2]
  · intro n hn
    show findBranch (mainMergeSt st sb tb) n = findBranch st n
    unfold mainMergeSt
    rw [findBranch_setHead_ne (by rw [htbname]; exact hn)]
    exact findBranch_congr (mergeHeads_branches st sb.head tb.head) n
  · intro cS
    exact exec_conflict_shape hpc

theorem claim4_witness :
    (execute cfg0 false true (some v010)
        (MergeRequest.mk ("release/0.1") ("master")) stRel).1
      = some Err.pairIncomplete ∧
    findBranch (execute cfg0 false true (some v010)
        (MergeRequest.mk ("release/0.1") ("master")) stRel).2 ("develop")
      = findBranch stRel ("develop") := by
  have h := claim4_paired_ordering cfg0 (some v010)
    (MergeRequest.mk ("release/0.1") ("master")) stRel bRel1 bMain0 bDev0
    Role.release Role.main (by decide) (by decide) (by decide) (by decide)
  exact ⟨h.1, h.2.2.1 ("develop") (by decide)⟩

theorem canMerge_src_ephemeral : ∀ s t : Role, canMerge s t = true → s ∈ ephemeralRoles := by
  decide

theorem classify_ephemeral_lineage {cfg : Config} {n : String} {fp : Option String}
    {r : Role} (h : classify cfg n fp = Except.ok r) (hr : r ∈ ephemeralRoles) :
    ∀ fp', classify cfg n fp' = Except.ok r := by
  intro fp'
  unfold classify at h ⊢
  by_cases h1 : startsWithP n featPre = true
  · rw [if_pos h1] at h ⊢
    exact h
  · rw [if_neg h1] at h ⊢
    by_cases h2 : startsWithP n relPre = true
    · rw [if_pos h2] at h ⊢
      exact h
    · rw [if_neg h2] at h ⊢
      by_cases h3 : (startsWithP n hotPre || startsWithP n maintPre) = true
      · rw [if_pos h3] at h ⊢
        exact h
      · rw [if_neg h3] at h ⊢
        exfalso
        cases fp with
        | some s => exact Except.noConfusion h
        | none =>
          by_cases hm : n = cfg.mainName
          · rw [if_pos hm] at h
            cases h
            exact absurd hr (by decide)
          · rw [if_neg hm] at h
            by_cases hd : n = cfg.developName
            · rw [if_pos hd] at h
              cases h
              exact absurd hr (by decide)
            · rw [if_neg hd] at h
              exact Except.noConfusion h

theorem countRole_congr {st st' : RepoState} (h : st.branches = st'.branches) (r : Role) :
    countRole st r = countRole st' r := by
  unfold countRole
  rw [h]

theorem countRole_setHead (st : RepoState) (n : String) (hd : Nat) (r : Role) :
    countRole (setHead st n hd) r = countRole st r := by
  unfold countRole setHead
  show List.countP _ (st.branches.map _) = _
  rw [List.countP_map]
  apply List.countP_congr
  intro b hb
  show ((if b.name == n then BranchRef.mk b.name b.role hd b.forkedFrom else b).role == r)
      = true ↔ (b.role == r) = true
  split <;> exact Iff.rfl

theorem countRole_removeBranch {st : RepoState} {src : String} {r : Role}
    (hl : ∀ b ∈ st.branches, b.name = src → b.role ≠ r) :
    countRole (removeBranch st src) r = countRole st r := by
  unfold countRole removeBranch
  show List.countP _ (st.branches.filter _) = _
  rw [List.countP_filter]
  apply List.countP_congr
  intro b hb
  constructor
  · intro hx
    exact ((Bool.and_eq_true _ _).mp hx).1
  · intro hx
    refine (Bool.and_eq_true _ _).mpr ⟨hx, ?_⟩
    have hne : b.name ≠ src := fun hbs =>
      hl b hb hbs (by simpa [beq_iff_eq] using hx)
    simpa [bne_iff_ne] using hne

theorem srcRole_map_adj {l : List BranchRef} {n : String} {hd : Nat} {src : String}
    {r : Role} (hl : ∀ b ∈ l, b.name = src → b.role ≠ r) :
    ∀ b ∈ l.map (fun b =>
      if b.name == n then BranchRef.mk b.name b.role hd b.forkedFrom else b),
      b.name = src → b.role ≠ r := by
  intro b hb
  simp only [List.mem_map] at hb
  obtain ⟨b0, hb0, hfb⟩ := hb
  subst hfb
  show (if b0.name == n then BranchRef.mk b0.name b0.role hd b0.forkedFrom else b0).name
      = src → _
  split <;> exact hl b0 hb0

/-- C9: after every successful execute(MergeRequest) the source branch is
deleted, and the source role is always an ephemeral one (Feature, Release or
Maintenance), so deletion happens exactly for branches of ephemeral role;
the number of Main-role and of Develop-role branches is unchanged by every
operation, hence a repository with exactly one Main and one Develop keeps
exactly one of each. -/
theorem claim9_source_deleted_historical_kept :
    ∀ (cfg : Config) (cF cS : Bool) (ver : Option Version) (mr : MergeRequest)
      (st out : RepoState) (sb tb : BranchRef) (sr tr : Role),
      policyCheck cfg mr st = Except.ok (sb, tb, sr, tr) →
      (∀ b ∈ st.branches, classify cfg b.name b.forkedFrom = Except.ok b.role) →
      execute cfg cF cS ver mr st = (none, out) →
      (findBranch out mr.source = none ∧ sr ∈ ephemeralRoles ∧
        countRole out Role.main = countRole st Role.main ∧
        countRole out Role.develop = countRole st Role.develop) := by
  intro cfg cF cS ver mr st out sb tb sr tr hpc hroles hrun
  obtain ⟨hfs, hft, hsr, htr, hcm⟩ := policyCheck_elim hpc
  have heph : sr ∈ ephemeralRoles := canMerge_src_ephemeral sr tr hcm
  have hsbname : sb.name = mr.source := findBranch_name hfs
  have hsr2 : classify cfg mr.source sb.forkedFrom = Except.ok sr := by
    rw [← hsbname]
    exact hsr
  have hsrc_role : ∀ b ∈ st.branches, b.name = mr.source → b.role = sr := by
    intro b hb hbn
    have hcb := hroles b hb
    rw [hbn, classify_ephemeral_lineage hsr2 heph b.forkedFrom] at hcb
    cases hcb
    rfl
  have hlP : ∀ r', r' ∉ ephemeralRoles →
      ∀ b ∈ st.branches, b.name = mr.source → b.role ≠ r' := by
    intro r' hr' b hb hbn heq
    rw [hsrc_role b hb hbn] at heq
    rw [heq] at heph
    exact hr' heph
  have key : ∀ r : Role, (∀ b ∈ st.branches, b.name = mr.source → b.role ≠ r) →
      countRole out r = countRole st r := by
    intro r hlr
    have hM2b : (mergeHeads st sb.head tb.head).2.branches = st.branches :=
      mergeHeads_branches st sb.head tb.head
    have hl1 : ∀ b ∈ (mergeHeads st sb.head tb.head).2.branches,
        b.name = mr.source → b.role ≠ r := by
      rw [hM2b]
      exact hlr
    have hl2 : ∀ b ∈ (mainMergeSt st sb tb).branches,
        b.name = mr.source → b.role ≠ r := srcRole_map_adj hl1
    have c5 : countRole (mainMergeSt st sb tb) r
        = countRole (mergeHeads st sb.head tb.head).2 r :=
      countRole_setHead (mergeHeads st sb.head tb.head).2 tb.name
        (mergeHeads st sb.head tb.head).1 r
    have c6 : countRole (mergeHeads st sb.head tb.head).2 r = countRole st r :=
      countRole_congr hM2b r
    by_cases hpm : pairedMerge sr tr = true
    · obtain ⟨db, hdb, hco, hni, hbr⟩ := exec_success_paired hpc hpm hrun
      have hQ2b : (mergeHeads (mainMergeSt st sb tb) sb.head db.head).2.branches
          = (mainMergeSt st sb tb).branches :=
        mergeHeads_branches (mainMergeSt st sb tb) sb.head db.head
      have hl3 : ∀ b ∈ (mergeHeads (mainMergeSt st sb tb) sb.head db.head).2.branches,
          b.name = mr.source → b.role ≠ r := by
        rw [hQ2b]
        exact hl2
      have hl4 : ∀ b ∈ (devMergeSt cfg (mainMergeSt st sb tb) sb db).branches,
          b.name = mr.source → b.role ≠ r := srcRole_map_adj hl3
      have c1 : countRole out r = countRole
          (removeBranch (devMergeSt cfg (mainMergeSt st sb tb) sb db) mr.source) r :=
        countRole_congr hbr r
      have c2 := countRole_removeBranch hl4
      have c3 : countRole (devMergeSt cfg (mainMergeSt st sb tb) sb db) r
          = countRole (mergeHeads (mainMergeSt st sb tb) sb.head db.head).2 r :=
        countRole_setHead (mergeHeads (mainMergeSt st sb tb) sb.head db.head).2
          cfg.developName (mergeHeads (mainMergeSt st sb tb) sb.head db.head).1 r
      have c4 : countRole (mergeHeads (mainMergeSt st sb tb) sb.head db.head).2 r
          = countRole (mainMergeSt st sb tb) r := countRole_congr hQ2b r
      rw [c1, c2, c3, c4, c5, c6]
    · have hpm' : pairedMerge sr tr = false := by
        revert hpm
        cases pairedMerge sr tr <;> simp
      have hout := exec_success_unpaired hpc hpm' hrun
      rw [hout]
      have c2 := countRole_removeBranch hl2
      rw [c2, c5, c6]
  refine ⟨?_, heph, key Role.main (hlP Role.main (by decide)),
    key Role.develop (hlP Role.develop (by decide))⟩
  by_cases hpm : pairedMerge sr tr = true
  · obtain ⟨db, hdb, hco, hni, hbr⟩ := exec_success_paired hpc hpm hrun
    unfold findBranch
    rw [hbr]
    exact find_filter_none mr.source _
  · have hpm' : pairedMerge sr tr = false := by
      revert hpm
      cases pairedMerge sr tr <;> simp
    have hout := exec_success_unpaired hpc hpm' hrun
    rw [hout]
    exact findBranch_removeBranch_self (mainMergeSt st sb tb) mr.source

theorem claim9_witness :
    findBranch (execute cfg0 false false none
        (MergeRequest.mk ("feature/login") ("develop")) stFeat).2 ("feature/login")
      = none ∧
    countRole (execute cfg0 false false none
        (MergeRequest.mk ("feature/login") ("develop")) stFeat).2 Role.main
      = countRole stFeat Role.main := by
  have h := claim9_source_deleted_historical_kept cfg0 false false none
    (MergeRequest.mk ("feature/login") ("develop")) stFeat
    (execute cfg0 false false none
      (MergeRequest.mk ("feature/login") ("develop")) stFeat).2
    bFeat1 bDev0 Role.feature Role.develop (by decide) (by decide) (by decide)
  exact ⟨h.1, h.2.2.1⟩

theorem headsBelow_mergeHeads {st : RepoState} (h : headsBelow st) (s t : Nat) :
    headsBelow (mergeHeads st s t).2 := by
  intro b hb
  rw [mergeHeads_branches] at hb
  exact Nat.lt_of_lt_of_le (h b hb) (mergeHeads_nextId_le st s t)

theorem headsBelow_setHead {st : RepoState} {n : String} {hd : Nat}
    (h : headsBelow st) (hhd : hd < st.nextId) : headsBelow (setHead st n hd) := by
  intro b hb
  show b.head < st.nextId
  unfold setHead at hb
  simp only [List.mem_map] at hb
  obtain ⟨b0, hb0, hfb⟩ := hb
  subst hfb
  split
  · exact hhd
  · exact h b0 hb0

/-- C10: in every finishing sequence the ephemeral branch is deleted only
after all of its required merges have completed: after a successful
execute(MergeRequest), the source branch is gone, and its old head commit is
reachable from the new head of the merge target, and, for paired merges,
also from the new head of Develop — so no commit becomes unreachable
through the deletion. -/
theorem claim10_deletion_preserves_reachability :
    ∀ (cfg : Config) (cF cS : Bool) (ver : Option Version) (mr : MergeRequest)
      (st out : RepoState) (sb tb : BranchRef) (sr tr : Role),
      policyCheck cfg mr st = Except.ok (sb, tb, sr, tr) →
      wfState st →
      mr.source ≠ mr.target →
      mr.source ≠ cfg.developName →
      execute cfg cF cS ver mr st = (none, out) →
      (findBranch out mr.source = none ∧
        reachB out.commits out.nextId (headOf out mr.target) sb.head = true ∧
        (pairedMerge sr tr = true →
          reachB out.commits out.nextId (headOf out cfg.developName) sb.head = true)) := by
  intro cfg cF cS ver mr st out sb tb sr tr hpc hwf hst hsd hrun
  obtain ⟨hfs, hft, hsr, htr, hcm⟩ := policyCheck_elim hpc
  obtain ⟨hbel, hhb⟩ := hwf
  have hsbh : sb.head < st.nextId := hhb sb (findBranch_mem hfs)
  have htbh : tb.head < st.nextId := hhb tb (findBranch_mem hft)
  have htbname : tb.name = mr.target := findBranch_name hft
  have hreach1 : Reach (mergeHeads st sb.head tb.head).2.commits
      (mergeHeads st sb.head tb.head).1 sb.head :=
    (mergeHeads_reaches st sb.head tb.head (below_keys hbel)).1
  have hbelM : below (mergeHeads st sb.head tb.head).2.commits
      (mergeHeads st sb.head tb.head).2.nextId :=
    mergeHeads_below st sb.head tb.head hbel hsbh htbh
  have hheadM : (mergeHeads st sb.head tb.head).1
      < (mergeHeads st sb.head tb.head).2.nextId :=
    mergeHeads_head_lt st sb.head tb.head hsbh htbh
  have hhbM : headsBelow (mergeHeads st sb.head tb.head).2 :=
    headsBelow_mergeHeads hhb sb.head tb.head
  have hhb1 : headsBelow (mainMergeSt st sb tb) := headsBelow_setHead hhbM hheadM
  have hbel1 : below (mainMergeSt st sb tb).commits (mainMergeSt st sb tb).nextId := hbelM
  have hft1 : findBranch (mergeHeads st sb.head tb.head).2 tb.name = some tb := by
    rw [findBranch_congr (mergeHeads_branches st sb.head tb.head), htbname]
    exact hft
  have hfttgt : findBranch (mainMergeSt st sb tb) mr.target
      = some (BranchRef.mk tb.name tb.role (mergeHeads st sb.head tb.head).1
          tb.forkedFrom) := by
    unfold mainMergeSt
    rw [← htbname, findBranch_setHead_self hft1]
  by_cases hpm : pairedMerge sr tr = true
  · obtain ⟨db, hdb, hco, hni, hbr⟩ := exec_success_paired hpc hpm hrun
    have hdbm : db ∈ (mainMergeSt st sb tb).branches := findBranch_mem hdb
    have hdbh : db.head < (mainMergeSt st sb tb).nextId := hhb1 db hdbm
    have hsbh1 : sb.head < (mainMergeSt st sb tb).nextId :=
      Nat.lt_of_lt_of_le hsbh (mergeHeads_nextId_le st sb.head tb.head)
    have hreachQ : Reach (mergeHeads (mainMergeSt st sb tb) sb.head db.head).2.commits
        (mergeHeads (mainMergeSt st sb tb) sb.head db.head).1 sb.head :=
      (mergeHeads_reaches (mainMergeSt st sb tb) sb.head db.head (below_keys hbel1)).1
    have hbelQ : below (mergeHeads (mainMergeSt st sb tb) sb.head db.head).2.commits
        (mergeHeads (mainMergeSt st sb tb) sb.head db.head).2.nextId :=
      mergeHeads_below (mainMergeSt st sb tb) sb.head db.head hbel1 hsbh1 hdbh
    have hheadQ : (mergeHeads (mainMergeSt st sb tb) sb.head db.head).1
        < (mergeHeads (mainMergeSt st sb tb) sb.head db.head).2.nextId :=
      mergeHeads_head_lt (mainMergeSt st sb tb) sb.head db.head hsbh1 hdbh
    have hreachM : Reach (mergeHeads (mainMergeSt st sb tb) sb.head db.head).2.commits
        (mergeHeads st sb.head tb.head).1 sb.head :=
      mergeHeads_reach_transfer (mainMergeSt st sb tb) sb.head db.head hbel1
        hheadM hreach1
    have hheadM2 : (mergeHeads st sb.head tb.head).1
        < (mergeHeads (mainMergeSt st sb tb) sb.head db.head).2.nextId :=
      Nat.lt_of_lt_of_le hheadM
        (mergeHeads_nextId_le (mainMergeSt st sb tb) sb.head db.head)
    have houtc : out.commits
        = (mergeHeads (mainMergeSt st sb tb) sb.head db.head).2.commits := hco
    have houtn : out.nextId
        = (mergeHeads (mainMergeSt st sb tb) sb.head db.head).2.nextId := hni
    have hfdev : findBranch out cfg.developName
        = some (BranchRef.mk db.name db.role
            (mergeHeads (mainMergeSt st sb tb) sb.head db.head).1 db.forkedFrom) := by
      have h1 : findBranch out cfg.developName = findBranch
          (removeBranch (devMergeSt cfg (mainMergeSt st sb tb) sb db) mr.source)
          cfg.developName := findBranch_congr hbr cfg.developName
      rw [h1, findBranch_removeBranch_ne (fun he => hsd he.symm)]
      show findBranch (setHead (mergeHeads (mainMergeSt st sb tb) sb.head db.head).2
          cfg.developName (mergeHeads (mainMergeSt st sb tb) sb.head db.head).1)
          cfg.developName = _
      have h2 : findBranch (mergeHeads (mainMergeSt st sb tb) sb.head db.head).2
          cfg.developName = some db := by
        rw [findBranch_congr
          (mergeHeads_branches (mainMergeSt st sb tb) sb.head db.head)]
        exact hdb
      rw [findBranch_setHead_self h2]
    refine ⟨?_, ?_, ?_⟩
    · unfold findBranch
      rw [hbr]
      exact find_filter_none mr.source _
    · by_cases hdt : cfg.developName = mr.target
      · have hh : headOf out mr.target
            = (mergeHeads (mainMergeSt st sb tb) sb.head db.head).1 := by
          unfold headOf
          rw [← hdt, hfdev]
        rw [hh, houtc, houtn]
        exact reachB_complete (below_dec hbelQ) hreachQ _ hheadQ
      · have hh : headOf out mr.target = (mergeHeads st sb.head tb.head).1 := by
          unfold headOf
          have h1 : findBranch out mr.target = findBranch
              (removeBranch (devMergeSt cfg (mainMergeSt st sb tb) sb db) mr.source)
              mr.target := findBranch_congr hbr mr.target
          rw [h1, findBranch_removeBranch_ne (fun he => hst he.symm)]
          show (match findBranch (setHead
              (mergeHeads (mainMergeSt st sb tb) sb.head db.head).2 cfg.developName
              (mergeHeads (mainMergeSt st sb tb) sb.head db.head).1) mr.target with
            | some b => b.head
            | none => 0) = _
          rw [findBranch_setHead_ne (fun he => hdt he.symm)]
          rw [findBranch_congr
            (mergeHeads_branches (mainMergeSt st sb tb) sb.head db.head)]
          rw [hfttgt]
        rw [hh, houtc, houtn]
        exact reachB_complete (below_dec hbelQ) hreachM _ hheadM2
    · intro _
      have hh : headOf out cfg.developName
          = (mergeHeads (mainMergeSt st sb tb) sb.head db.head).1 := by
        unfold headOf
        rw [hfdev]
      rw [hh, houtc, houtn]
      exact reachB_complete (below_dec hbelQ) hreachQ _ hheadQ
  · have hpm' : pairedMerge sr tr = false := by
      revert hpm
      cases pairedMerge sr tr <;> simp
    have hout := exec_success_unpaired hpc hpm' hrun
    refine ⟨?_, ?_, ?_⟩
    · rw [hout]
      exact findBranch_removeBranch_self (mainMergeSt st sb tb) mr.source
    · have hh : headOf out mr.target = (mergeHeads st sb.head tb.head).1 := by
        unfold headOf
        rw [hout, findBranch_removeBranch_ne (fun he => hst he.symm), hfttgt]
      have houtc : out.commits = (mergeHeads st sb.head tb.head).2.commits := by
        rw [hout]
        rfl
      have houtn : out.nextId = (mergeHeads st sb.head tb.head).2.nextId := by
        rw [hout]
        rfl
      rw [hh, houtc, houtn]
      exact reachB_complete (below_dec hbelM) hreach1 _ hheadM
    · intro hcontra
      rw [hpm'] at hcontra
      exact Bool.noConfusion hcontra

theorem claim10_witness :
    reachB (execute cfg0 false false (some v010)
        (MergeRequest.mk ("release/0.1") ("master")) stRel).2.commits
      (execute cfg0 false false (some v010)
        (MergeRequest.mk ("release/0.1") ("master")) stRel).2.nextId
      (headOf (execute cfg0 false false (some v010)
        (MergeRequest.mk ("release/0.1") ("master")) stRel).2 ("develop")) 1 = true := by
  have h := claim10_deletion_preserves_reachability cfg0 false false (some v010)
    (MergeRequest.mk ("release/0.1") ("master")) stRel
    (execute cfg0 false false (some v010)
      (MergeRequest.mk ("release/0.1") ("master")) stRel).2
    bRel1 bMain0 Role.release Role.main (by decide)
    (by unfold wfState below headsBelow; exact ⟨by decide, by decide⟩)
    (by decide) (by decide) (by decide)
  exact h.2.2 (by decide)

/-- C3: after every successful release finish or hotfix finish (no
PartialRelease reported), every commit reachable from Main's head is also
reachable from Develop's head: the paired merge restores reachability
invariant 2.  The hypothesis on `reachB st.commits` states what the workflow
guarantees when the finish command runs: Main's current head is an ancestor
of the finishing branch's head (the branch descends, via Develop, from a
history that already contained Main), under which the backend's first merge
fast-forwards Main; `hotfixFinish` is definitionally `releaseFinish`, so the
theorem covers both commands. -/
theorem claim3_finish_restores_reachability :
    ∀ (cfg : Config) (cF cS : Bool) (rb : String) (v : Version) (st out : RepoState)
      (sb tb : BranchRef),
      wfState st →
      findBranch st rb = some sb →
      findBranch st cfg.mainName = some tb →
      (classify cfg sb.name sb.forkedFrom = Except.ok Role.release ∨
        classify cfg sb.name sb.forkedFrom = Except.ok Role.maintenance) →
      classify cfg tb.name tb.forkedFrom = Except.ok Role.main →
      cfg.mainName ≠ cfg.developName →
      rb ≠ cfg.mainName →
      rb ≠ cfg.developName →
      reachB st.commits st.nextId sb.head tb.head = true →
      releaseFinish cfg cF cS rb v st = (none, out) →
      ∀ c, reachB out.commits out.nextId (headOf out cfg.mainName) c = true →
        reachB out.commits out.nextId (headOf out cfg.developName) c = true := by
  intro cfg cF cS rb v st out sb tb hwf hfs hft hsror htr hmd hrm hrd hanc hrun c hmc
  obtain ⟨hbel, hhb⟩ := hwf
  obtain ⟨sr, hsr, hcm, hpm⟩ : ∃ sr, classify cfg sb.name sb.forkedFrom = Except.ok sr ∧
      canMerge sr Role.main = true ∧ pairedMerge sr Role.main = true := by
    rcases hsror with h | h
    · exact ⟨Role.release, h, rfl, rfl⟩
    · exact ⟨Role.maintenance, h, rfl, rfl⟩
  have hpc : policyCheck cfg (MergeRequest.mk rb cfg.mainName) st
      = Except.ok (sb, tb, sr, Role.main) :=
    policyCheck_intro hfs hft hsr htr hcm
  have hrun' : execute cfg cF cS (some v) (MergeRequest.mk rb cfg.mainName) st
      = (none, out) := hrun
  obtain ⟨db, hdb, hco, hni, hbr⟩ := exec_success_paired hpc hpm hrun'
  have hsbh : sb.head < st.nextId := hhb sb (findBranch_mem hfs)
  have htbh : tb.head < st.nextId := hhb tb (findBranch_mem hft)
  have htbname : tb.name = cfg.mainName := findBranch_name hft
  have hm1 : mergeHeads st sb.head tb.head = (sb.head, st) := by
    unfold mergeHeads
    rw [if_pos hanc]
  have hbelM : below (mergeHeads st sb.head tb.head).2.commits
      (mergeHeads st sb.head tb.head).2.nextId :=
    mergeHeads_below st sb.head tb.head hbel hsbh htbh
  have hheadM : (mergeHeads st sb.head tb.head).1
      < (mergeHeads st sb.head tb.head).2.nextId :=
    mergeHeads_head_lt st sb.head tb.head hsbh htbh
  have hhbM : headsBelow (mergeHeads st sb.head tb.head).2 :=
    headsBelow_mergeHeads hhb sb.head tb.head
  have hhb1 : headsBelow (mainMergeSt st sb tb) := headsBelow_setHead hhbM hheadM
  have hbel1 : below (mainMergeSt st sb tb).commits (mainMergeSt st sb tb).nextId := hbelM
  have hdbh : db.head < (mainMergeSt st sb tb).nextId := hhb1 db (findBranch_mem hdb)
  have hsbh1 : sb.head < (mainMergeSt st sb tb).nextId :=
    Nat.lt_of_lt_of_le hsbh (mergeHeads_nextId_le st sb.head tb.head)
  have hreachQ : Reach (mergeHeads (mainMergeSt st sb tb) sb.head db.head).2.commits
      (mergeHeads (mainMergeSt st sb tb) sb.head db.head).1 sb.head :=
    (mergeHeads_reaches (mainMergeSt st sb tb) sb.head db.head (below_keys hbel1)).1
  have hbelQ : below (mergeHeads (mainMergeSt st sb tb) sb.head db.head).2.commits
      (mergeHeads (mainMergeSt st sb tb) sb.head db.head).2.nextId :=
    mergeHeads_below (mainMergeSt st sb tb) sb.head db.head hbel1 hsbh1 hdbh
  have hheadQ : (mergeHeads (mainMergeSt st sb tb) sb.head db.head).1
      < (mergeHeads (mainMergeSt st sb tb) sb.head db.head).2.nextId :=
    mergeHeads_head_lt (mainMergeSt st sb tb) sb.head db.head hsbh1 hdbh
  have houtc : out.commits
      = (mergeHeads (mainMergeSt st sb tb) sb.head db.head).2.commits := hco
  have houtn : out.nextId
      = (mergeHeads (mainMergeSt st sb tb) sb.head db.head).2.nextId := hni
  have hfMain : findBranch out cfg.mainName
      = some (BranchRef.mk tb.name tb.role sb.head tb.forkedFrom) := by
    have h1 : findBranch out cfg.mainName = findBranch
        (removeBranch (devMergeSt cfg (mainMergeSt st sb tb) sb db) rb)
        cfg.mainName := findBranch_congr hbr cfg.mainName
    rw [h1, findBranch_removeBranch_ne (fun he => hrm he.symm)]
    show findBranch (setHead (mergeHeads (mainMergeSt st sb tb) sb.head db.head).2
        cfg.developName (mergeHeads (mainMergeSt st sb tb) sb.head db.head).1)
        cfg.mainName = _
    rw [findBranch_setHead_ne hmd]
    rw [findBranch_congr (mergeHeads_branches (mainMergeSt st sb tb) sb.head db.head)]
    unfold mainMergeSt
    rw [hm1]
    have hft1 : findBranch st tb.name = some tb := by
      rw [htbname]
      exact hft
    rw [← htbname, findBranch_setHead_self hft1]
  have hfDev : findBranch out cfg.developName
      = some (BranchRef.mk db.name db.role
          (mergeHeads (mainMergeSt st sb tb) sb.head db.head).1 db.forkedFrom) := by
    have h1 : findBranch out cfg.developName = findBranch
        (removeBranch (devMergeSt cfg (mainMergeSt st sb tb) sb db) rb)
        cfg.developName := findBranch_congr hbr cfg.developName
    rw [h1, findBranch_removeBranch_ne (fun he => hrd he.symm)]
    show findBranch (setHead (mergeHeads (mainMergeSt st sb tb) sb.head db.head).2
        cfg.developName (mergeHeads (mainMergeSt st sb tb) sb.head db.head).1)
        cfg.developName = _
    have h2 : findBranch (mergeHeads (mainMergeSt st sb tb) sb.head db.head).2
        cfg.developName = some db := by
      rw [findBranch_congr (mergeHeads_branches (mainMergeSt st sb tb) sb.head db.head)]
      exact hdb
    rw [findBranch_setHead_self h2]
  have hmainhead : headOf out cfg.mainName = sb.head := by
    unfold headOf
    rw [hfMain]
  have hdevhead : headOf out cfg.developName
      = (mergeHeads (mainMergeSt st sb tb) sb.head db.head).1 := by
    unfold headOf
    rw [hfDev]
  rw [hmainhead, houtc, houtn] at hmc
  have hsc : Reach (mergeHeads (mainMergeSt st sb tb) sb.head db.head).2.commits
      sb.head c := reachB_sound hmc
  have hqc : Reach (mergeHeads (mainMergeSt st sb tb) sb.head db.head).2.commits
      (mergeHeads (mainMergeSt st sb tb) sb.head db.head).1 c := hreachQ.trans hsc
  rw [hdevhead, houtc, houtn]
  exact reachB_complete (below_dec hbelQ) hqc _ hheadQ

theorem claim3_witness :
    reachB (releaseFinish cfg0 false false ("release/0.1") v010 stRel).2.commits
      (releaseFinish cfg0 false false ("release/0.1") v010 stRel).2.nextId
      (headOf (releaseFinish cfg0 false false ("release/0.1") v010 stRel).2 ("develop"))
      0 = true := by
  have h := claim3_finish_restores_reachability cfg0 false false ("release/0.1") v010
    stRel (releaseFinish cfg0 false false ("release/0.1") v010 stRel).2 bRel1 bMain0
    (by unfold wfState below headsBelow; exact ⟨by decide, by decide⟩)
    (by decide) (by decide) (Or.inl (by decide)) (by decide) (by decide) (by decide)
    (by decide) (by decide) (by decide)
  exact h 0 (by decide)

theorem claim8_witness :
    classify cfg0 ("feature/login") (some ("develop")) = Except.ok Role.feature ∧
    classify cfg0 ("wip") none = Except.error Err.classificationFailed :=
  ⟨(claim8_classifier cfg0 ("feature/login") (some ("develop"))).1 (by decide),
    (claim8_classifier cfg0 ("wip") none).2.2.2.2 (by decide) (by decide) (by decide)
      (by decide) (Or.inr ⟨by decide, by decide⟩)⟩

end Gitflow
